import Mathlib

/-!
Verification development for the mcp-lens registry and process supervisor.

The definitions below are a shallow embedding of the TypeScript sources:

* src/src/providers/mcpCardProvider.ts (MCPCardProvider: loadMCPs, setFilter,
  getMCPByName, getRootSections, getMCPCards, enrichMCPData);
* the type definitions of src/unnamed/part_000 (types.ts: MCPConfig, MCPFile,
  MCPItem, MCPFilter);
* the file-reading helper readMcpFile shown in src/docs/VSCODE_MCP_API.md
  (the repository's fileUtils module is not part of the sources at hand, so
  its two helpers are embedded from that documented implementation and from
  the specification's description of them);
* the process supervisor (startMCPServer, stopMCPServer, restartMCPServer,
  stopAllMCPs of utils/mcpControl.ts), whose source file is likewise absent
  and which is modelled from the specification, section 4.3.

File-system and process I/O are modelled as oracles: a file system maps a
path to a read outcome, and spawn/exit/timeout outcomes are boolean
parameters of the corresponding operations.
-/

/-- Transport kind of a server configuration (types.ts MCPConfig.type). -/
inductive MCPTransport where
  | stdio
  | socket
  | ipc
deriving DecidableEq

/-- Configuration of one server, as parsed from a scope file
(types.ts MCPConfig). -/
structure MCPConfig where
  type : MCPTransport
  command : String
  args : Option (List String) := none
  env : Option (List (String × String)) := none
  version : Option String := none
  gallery : Option Bool := none
  disabled : Option Bool := none
  alwaysAllow : Option (List String) := none
deriving DecidableEq

/-- Input definition of a scope file (types.ts MCPInput). -/
structure MCPInput where
  name : String
  type : String
  default? : Option String := none
  description : Option String := none
deriving DecidableEq

/-- Command definition of a scope file (types.ts MCPCommand). -/
structure MCPCommand where
  name : String
  args : Option (List String) := none
  description : Option String := none
deriving DecidableEq

/-- A parsed scope configuration file (types.ts MCPFile).  The servers
mapping is a JavaScript object; it is embedded as the association list of
its key-value pairs in insertion order. -/
structure MCPFile where
  servers : List (String × MCPConfig)
  inputs : Option (List MCPInput) := none
  commands : Option (List MCPCommand) := none
deriving DecidableEq

/-- Runtime status of a server entry (types.ts MCPItem.status). -/
inductive MCPStatus where
  | running
  | stopped
  | error
  | unknown
deriving DecidableEq

/-- A tool advertised by a server (types.ts MCPTool, display fields only). -/
structure MCPTool where
  name : String
  description : Option String := none
deriving DecidableEq

/-- A server entry with runtime information (types.ts MCPItem). -/
structure MCPItem where
  name : String
  config : MCPConfig
  isGlobal : Bool
  tools : Option (List MCPTool) := none
  status : Option MCPStatus := none
  log : Option String := none
  author : Option String := none
  mode : Option String := none
  description : Option String := none
  toolCount : Option Nat := none
deriving DecidableEq

/-- View filter (types.ts MCPFilter). -/
inductive MCPFilter where
  | both
  | global
  | local
deriving DecidableEq

/-- Outcome of attempting to read and parse one file at one path.  This is
the oracle describing the file system as seen through
vscode.workspace.fs.readFile followed by JSON.parse: either both succeed
and yield a parsed MCPFile, or reading fails (missing file or I/O error),
or the content fails to parse. -/
inductive ReadOutcome where
  | ok (file : MCPFile)
  | ioError
  | parseError
deriving DecidableEq

/-- A file system: what reading each path yields. -/
def FileSystem : Type := String → ReadOutcome

/-- Embedding of readMcpFile (src/docs/VSCODE_MCP_API.md, File System
Utilities): try reading and parsing; on success return the parsed file,
and on any error (read failure or parse failure) catch it, log, and
return null. -/
def readMCPFile (fs : FileSystem) (path : String) : Option MCPFile :=
  match fs path with
  | ReadOutcome.ok file => some file
  | ReadOutcome.ioError => none
  | ReadOutcome.parseError => none

/-- Modelled from the spec: mcpFileToItems of utils/fileUtils.ts is not
among the sources at hand; section 4.2 of the specification describes it as
converting the returned file's servers mapping into a sequence of entries,
with name = mapping key and the scope tag taken from the source, and a
missing (fail-open) file yielding no entries.  Status starts as the
initial unknown (section 3). -/
def mcpFileToItems (file : Option MCPFile) (isGlobal : Bool) : List MCPItem :=
  match file with
  | none => []
  | some f =>
      f.servers.map (fun p =>
        { name := p.1
          config := p.2
          isGlobal := isGlobal
          status := some MCPStatus.unknown })

/-- One step of MCPCardProvider.enrichMCPData: assign a placeholder tool
count (Math.random() scaled to 1..10, here an oracle value rand i) and a
default description when the current one is absent or empty (JavaScript
falsiness of the empty string). -/
def enrichOne (rand : Nat → Nat) (i : Nat) (m : MCPItem) : MCPItem :=
  { m with
    toolCount := some (rand i % 10 + 1)
    description :=
      match m.description with
      | some d => if d = "" then some (m.config.command ++ " - MCP Server") else some d
      | none => some (m.config.command ++ " - MCP Server") }

/-- Embedding of MCPCardProvider.enrichMCPData, iterating enrichOne over
the list (the randomness stream is the oracle rand, indexed by position). -/
def enrichMCPData (rand : Nat → Nat) : Nat → List MCPItem → List MCPItem
  | _, [] => []
  | i, m :: ms => enrichOne rand i m :: enrichMCPData rand (i + 1) ms

/-- Mutable state of the MCPCardProvider (its private fields). -/
structure ProviderState where
  globalMCPs : List MCPItem
  localMCPs : List MCPItem
  filter : MCPFilter
  customGlobalPath : Option String
  customLocalPath : Option String
deriving DecidableEq

/-- Observable events of one provider operation, in order of occurrence:
a scope file read resolving, a scope entry sequence being replaced, and
the change notification fired by refresh() through the tree-data change
emitter. -/
inductive ProviderEvent where
  | readScope (isGlobal : Bool)
  | setScope (isGlobal : Bool)
  | notify
deriving DecidableEq

/-- Environment of the provider: the file system, the open workspace
folders, the platform-default paths (getGlobalMCPPath / getLocalMCPPath of
constants.ts), and the randomness streams consumed by enrichMCPData on
each scope. -/
structure ProviderEnv where
  fs : FileSystem
  workspaceFolders : List String
  globalDefaultPath : String
  localDefaultPath : String → String
  randG : Nat → Nat
  randL : Nat → Nat

/-- Effective global-scope path: the custom override when set, else the
platform default (loadMCPs line: customGlobalPath ?? getGlobalMCPPath()). -/
def effectiveGlobalPath (env : ProviderEnv) (s : ProviderState) : String :=
  s.customGlobalPath.getD env.globalDefaultPath

/-- Effective local-scope path for a workspace folder: the custom override
when set, else the default under the workspace
(customLocalPath ?? getLocalMCPPath(workspacePath)). -/
def effectiveLocalPath (env : ProviderEnv) (s : ProviderState) (w : String) : String :=
  s.customLocalPath.getD (env.localDefaultPath w)

/-- Embedding of MCPCardProvider.loadMCPs: read the global file at the
effective global path and replace globalMCPs with its enriched entries;
then, when a workspace folder is open, read the local file at the
effective local path and replace localMCPs with its enriched entries,
and otherwise set localMCPs to the empty sequence; finally fire one
refresh.  The returned event list records the order of these steps. -/
def loadMCPs (env : ProviderEnv) (s : ProviderState) :
    ProviderState × List ProviderEvent :=
  let gfile := readMCPFile env.fs (effectiveGlobalPath env s)
  let gItems := enrichMCPData env.randG 0 (mcpFileToItems gfile true)
  match env.workspaceFolders with
  | [] =>
      ({ s with globalMCPs := gItems, localMCPs := [] },
       [ProviderEvent.readScope true, ProviderEvent.setScope true,
        ProviderEvent.setScope false, ProviderEvent.notify])
  | w :: _ =>
      let lfile := readMCPFile env.fs (effectiveLocalPath env s w)
      let lItems := enrichMCPData env.randL 0 (mcpFileToItems lfile false)
      ({ s with globalMCPs := gItems, localMCPs := lItems },
       [ProviderEvent.readScope true, ProviderEvent.setScope true,
        ProviderEvent.readScope false, ProviderEvent.setScope false,
        ProviderEvent.notify])

/-- Embedding of MCPCardProvider.setFilter: store the filter and fire one
refresh. -/
def setFilter (s : ProviderState) (f : MCPFilter) :
    ProviderState × List ProviderEvent :=
  ({ s with filter := f }, [ProviderEvent.notify])

/-- Embedding of MCPCardProvider.getMCPByName: find the first entry with
the given name in the concatenation of localMCPs and globalMCPs. -/
def getMCPByName (s : ProviderState) (name : String) : Option MCPItem :=
  (s.localMCPs ++ s.globalMCPs).find? (fun m => m.name == name)

/-- Decimal digit character of a value below ten (model of the characters
produced when a number is interpolated into a template literal). -/
def digitChar (d : Nat) : Char :=
  if d = 0 then '0' else if d = 1 then '1' else if d = 2 then '2'
  else if d = 3 then '3' else if d = 4 then '4' else if d = 5 then '5'
  else if d = 6 then '6' else if d = 7 then '7' else if d = 8 then '8'
  else if d = 9 then '9' else '*'

/-- Fuel-indexed decimal digit list of a natural number, most significant
digit first. -/
def natDigitsAux : Nat → Nat → List Char
  | 0, _ => []
  | fuel + 1, n =>
      if n < 10 then [digitChar n]
      else natDigitsAux fuel (n / 10) ++ [digitChar (n % 10)]

/-- Decimal rendering of a natural number, as interpolated into the
section labels. -/
def natToString (n : Nat) : String :=
  String.mk (natDigitsAux (n + 1) n)

/-- Whether the pattern occurs at the very front of the character list. -/
def leadsWith : List Char → List Char → Bool
  | [], _ => true
  | _ :: _, [] => false
  | p :: ps, c :: cs => p == c && leadsWith ps cs

/-- Whether the pattern occurs as a contiguous segment anywhere in the
character list. -/
def hasSeg (pat : List Char) : List Char → Bool
  | [] => leadsWith pat []
  | c :: cs => leadsWith pat (c :: cs) || hasSeg pat cs

/-- Model of JavaScript String.prototype.includes, used by getMCPCards to
dispatch on the section label. -/
def strIncludes (s pat : String) : Bool :=
  hasSeg pat.data s.data

/-- Label of the global section (getRootSections). -/
def globalSectionLabel (n : Nat) : String :=
  "> Global MCPs (" ++ natToString n ++ ")"

/-- Label of the local section (getRootSections). -/
def localSectionLabel (n : Nat) : String :=
  "> Local MCPs (" ++ natToString n ++ ")"

/-- Root items of the tree: a section tree item carrying its label, or the
fallback item shown when no section was produced. -/
inductive RootItem where
  | sectionItem (label : String)
  | noMCPsItem
deriving DecidableEq

/-- Children of a section: a card carrying its entry, or a visual
separator row. -/
inductive CardItem where
  | card (m : MCPItem)
  | separator
deriving DecidableEq

/-- Embedding of MCPCardProvider.getRootSections: a global section when the
filter admits the global scope and globalMCPs is non-empty, then a local
section when the filter admits the local scope and localMCPs is non-empty;
when no section results, the single fallback item. -/
def getRootSections (s : ProviderState) : List RootItem :=
  let gSecs : List RootItem :=
    if (s.filter = MCPFilter.both ∨ s.filter = MCPFilter.global)
        ∧ 0 < s.globalMCPs.length then
      [RootItem.sectionItem (globalSectionLabel s.globalMCPs.length)]
    else []
  let lSecs : List RootItem :=
    if (s.filter = MCPFilter.both ∨ s.filter = MCPFilter.local)
        ∧ 0 < s.localMCPs.length then
      [RootItem.sectionItem (localSectionLabel s.localMCPs.length)]
    else []
  let secs := gSecs ++ lSecs
  if secs.isEmpty then [RootItem.noMCPsItem] else secs

/-- Card rows of a sequence of entries, with a separator row between
consecutive cards and none after the last (the loop of getMCPCards). -/
def cardsWithSeps : List MCPItem → List CardItem
  | [] => []
  | [m] => [CardItem.card m]
  | m :: m2 :: ms => CardItem.card m :: CardItem.separator :: cardsWithSeps (m2 :: ms)

/-- Embedding of MCPCardProvider.getMCPCards: the section is recognised as
the global one exactly when its label includes the text Global, and the
corresponding scope's entries are rendered as cards. -/
def getMCPCards (s : ProviderState) (label : String) : List CardItem :=
  let isGlobal := strIncludes label "Global"
  let mcps := if isGlobal then s.globalMCPs else s.localMCPs
  cardsWithSeps mcps

/-- The entries a view consumer is given: every card of every section
produced for the current filter, in order. -/
def cardEntriesOf (s : ProviderState) : List MCPItem :=
  (getRootSections s).flatMap (fun it =>
    match it with
    | RootItem.sectionItem label =>
        (getMCPCards s label).filterMap (fun c =>
          match c with
          | CardItem.card m => some m
          | CardItem.separator => none)
    | RootItem.noMCPsItem => [])

/-- Pointwise update of a per-name map. -/
def updateFn {α : Type} (f : String → α) (n : String) (v : α) : String → α :=
  fun x => if x = n then v else f x

/-- Lookup of the process handle (here: the process identifier) tracked
for a name. -/
def lookupProc (ps : List (String × Nat)) (n : String) : Option Nat :=
  (ps.find? (fun p => p.1 == n)).map (fun p => p.2)

/-- Removal of the tracked handle for a name. -/
def removeProc (ps : List (String × Nat)) (n : String) : List (String × Nat) :=
  ps.filter (fun p => !(p.1 == n))

/-- Modelled from the spec: the state owned by the process supervisor
(utils/mcpControl.ts is not among the sources at hand).  Section 3 and
section 5: the name-to-process-handle mapping is exclusively owned by the
supervisor; each entry carries a status; a transient per-entry
stop-requested flag lets the exit handler distinguish a deliberate stop
from a crash (section 9).  Underlying processes are identified by the
counter nextPid, so that distinct spawns yield distinct identifiers. -/
structure Supervisor where
  procs : List (String × Nat)
  status : String → MCPStatus
  stopReq : String → Bool
  nextPid : Nat

/-- The supervisor state at extension activation: nothing tracked, every
entry at the initial unknown status. -/
def initSupervisor : Supervisor :=
  { procs := [], status := fun _ => MCPStatus.unknown,
    stopReq := fun _ => false, nextPid := 0 }

/-- Modelled from the spec: the exit handler registered by start
(section 4.3).  On process exit, when the exit followed an in-flight stop
request the status becomes stopped, otherwise error; the handle mapping
for the entry is always cleared, and the transient stop-requested flag is
consumed.  The handler only ever fires for a tracked process. -/
def onProcessExit (n : String) (s : Supervisor) : Supervisor :=
  match lookupProc s.procs n with
  | none => s
  | some _ =>
      { s with
        procs := removeProc s.procs n
        status := updateFn s.status n
          (if s.stopReq n then MCPStatus.stopped else MCPStatus.error)
        stopReq := updateFn s.stopReq n false }

/-- Modelled from the spec: startMCPServer of utils/mcpControl.ts
(section 4.3).  A no-op returning failure when the entry is disabled or a
handle already exists.  Otherwise the child is spawned (identifier
nextPid), status is set to running optimistically and the handlers are
registered; when the spawn fails (oracle spawnOk false) the spawn-error
event clears the handle and sets status to error, and start reports
failure. -/
def startMCPServer (spawnOk : Bool) (m : MCPItem) (s : Supervisor) :
    Supervisor × Bool :=
  if m.config.disabled = some true then (s, false)
  else
    match lookupProc s.procs m.name with
    | some _ => (s, false)
    | none =>
        let s1 : Supervisor :=
          { s with
            procs := (m.name, s.nextPid) :: s.procs
            status := updateFn s.status m.name MCPStatus.running
            nextPid := s.nextPid + 1 }
        if spawnOk then (s1, true)
        else
          ({ s1 with
             procs := removeProc s1.procs m.name
             status := updateFn s1.status m.name MCPStatus.error }, false)

/-- Modelled from the spec: the core of stopMCPServer, acting on a name
(section 4.3).  A no-op returning failure when no handle exists.
Otherwise the entry is marked stop-requested and the termination signal is
sent; when the process exits within the grace period (oracle exitsInTime),
or the escalated forceful kill succeeds (oracle killOk), the awaited exit
event runs the exit handler and stop succeeds; when even the forceful
kill fails, stop fails and the status is left as it was. -/
def stopByName (exitsInTime killOk : Bool) (n : String) (s : Supervisor) :
    Supervisor × Bool :=
  match lookupProc s.procs n with
  | none => (s, false)
  | some _ =>
      let s1 : Supervisor := { s with stopReq := updateFn s.stopReq n true }
      if exitsInTime then (onProcessExit n s1, true)
      else if killOk then (onProcessExit n s1, true)
      else (s1, false)

/-- Modelled from the spec: stopMCPServer of utils/mcpControl.ts takes the
entry and acts on its name. -/
def stopMCPServer (exitsInTime killOk : Bool) (m : MCPItem) (s : Supervisor) :
    Supervisor × Bool :=
  stopByName exitsInTime killOk m.name s

/-- Modelled from the spec: restartMCPServer of utils/mcpControl.ts
(section 4.3): sequential stop (when running) then start; when the stop
fails (timeout and failed forceful kill), restart fails without starting
a new process. -/
def restartMCPServer (exitsInTime killOk spawnOk : Bool) (m : MCPItem)
    (s : Supervisor) : Supervisor × Bool :=
  match lookupProc s.procs m.name with
  | some _ =>
      let r := stopMCPServer exitsInTime killOk m s
      if r.2 then startMCPServer spawnOk m r.1 else (r.1, false)
  | none => startMCPServer spawnOk m s

/-- Modelled from the spec: the iteration of stopAllMCPs over the tracked
names, threading the supervisor state and counting the entries that
failed to stop cleanly. -/
def stopAllGo (exits kills : String → Bool) :
    List String → Supervisor → Supervisor × Nat
  | [], s => (s, 0)
  | n :: ns, s =>
      let r := stopByName (exits n) (kills n) n s
      let rest := stopAllGo exits kills ns r.1
      (rest.1, (if r.2 then 0 else 1) + rest.2)

/-- Modelled from the spec: stopAllMCPs of utils/mcpControl.ts
(section 4.3): best-effort stop of every currently tracked process,
continuing past individual failures and reporting how many failed. -/
def stopAllMCPs (exits kills : String → Bool) (s : Supervisor) :
    Supervisor × Nat :=
  stopAllGo exits kills (s.procs.map (fun p => p.1)) s

/-- One supervisor operation together with the oracle outcomes it
consumes. -/
inductive SupAction where
  | startA (spawnOk : Bool) (m : MCPItem)
  | stopA (exitsInTime killOk : Bool) (m : MCPItem)
  | restartA (exitsInTime killOk spawnOk : Bool) (m : MCPItem)
  | exitA (n : String)
  | stopAllA (exits kills : String → Bool)

/-- State reached by running one supervisor operation. -/
def applyAction : SupAction → Supervisor → Supervisor
  | SupAction.startA sp m, s => (startMCPServer sp m s).1
  | SupAction.stopA e k m, s => (stopMCPServer e k m s).1
  | SupAction.restartA e k sp m, s => (restartMCPServer e k sp m s).1
  | SupAction.exitA n, s => onProcessExit n s
  | SupAction.stopAllA exits kills, s => (stopAllMCPs exits kills s).1

/-- The successive values written to the status field of entry n by a
start operation, in order. -/
def startWrites (spawnOk : Bool) (m : MCPItem) (s : Supervisor) (n : String) :
    List MCPStatus :=
  if m.config.disabled = some true then []
  else
    match lookupProc s.procs m.name with
    | some _ => []
    | none =>
        if n = m.name then
          if spawnOk then [MCPStatus.running]
          else [MCPStatus.running, MCPStatus.error]
        else []

/-- The successive values written to the status field of entry n by an
exit event for name x. -/
def exitWrites (x : String) (s : Supervisor) (n : String) : List MCPStatus :=
  match lookupProc s.procs x with
  | none => []
  | some _ =>
      if n = x then
        [if s.stopReq x then MCPStatus.stopped else MCPStatus.error]
      else []

/-- The successive values written to the status field of entry n by a
stop operation on name x. -/
def stopWrites (exitsInTime killOk : Bool) (x : String) (s : Supervisor)
    (n : String) : List MCPStatus :=
  match lookupProc s.procs x with
  | none => []
  | some _ =>
      if exitsInTime || killOk then
        if n = x then [MCPStatus.stopped] else []
      else []

/-- The successive values written to the status field of entry n by a
restart operation. -/
def restartWrites (exitsInTime killOk spawnOk : Bool) (m : MCPItem)
    (s : Supervisor) (n : String) : List MCPStatus :=
  match lookupProc s.procs m.name with
  | some _ =>
      let r := stopMCPServer exitsInTime killOk m s
      stopWrites exitsInTime killOk m.name s n ++
        (if r.2 then startWrites spawnOk m r.1 n else [])
  | none => startWrites spawnOk m s n

/-- The successive values written to the status field of entry n by the
stop-all iteration. -/
def stopAllWrites (exits kills : String → Bool) :
    List String → Supervisor → String → List MCPStatus
  | [], _, _ => []
  | x :: xs, s, n =>
      stopWrites (exits x) (kills x) x s n ++
        stopAllWrites exits kills xs (stopByName (exits x) (kills x) x s).1 n

/-- The successive values written to the status field of entry n by one
operation. -/
def actionWrites : SupAction → Supervisor → String → List MCPStatus
  | SupAction.startA sp m, s, n => startWrites sp m s n
  | SupAction.stopA e k m, s, n => stopWrites e k m.name s n
  | SupAction.restartA e k sp m, s, n => restartWrites e k sp m s n
  | SupAction.exitA x, s, n => exitWrites x s n
  | SupAction.stopAllA exits kills, s, n =>
      stopAllWrites exits kills (s.procs.map (fun p => p.1)) s n

/-- Supervisor well-formedness: an entry's status is running exactly when
a handle is tracked for it, and every tracked process identifier was
allocated below the counter. -/
structure SupWF (s : Supervisor) : Prop where
  running_iff : ∀ n, s.status n = MCPStatus.running ↔ (lookupProc s.procs n).isSome
  pid_lt : ∀ n p, lookupProc s.procs n = some p → p < s.nextPid

/-- The status transitions the specification's state machine allows
(section 4.3): unknown, stopped or error to running on a start, and
running to stopped (deliberate stop) or to error (unsolicited exit or
spawn failure). -/
def allowedEdge (a b : MCPStatus) : Prop :=
  (a = MCPStatus.unknown ∧ b = MCPStatus.running) ∨
  (a = MCPStatus.stopped ∧ b = MCPStatus.running) ∨
  (a = MCPStatus.error ∧ b = MCPStatus.running) ∨
  (a = MCPStatus.running ∧ b = MCPStatus.stopped) ∨
  (a = MCPStatus.running ∧ b = MCPStatus.error)

/-- Reading succeeds exactly on a successful read-and-parse. -/
theorem readMCPFile_ok {fs : FileSystem} {p : String} {f : MCPFile}
    (h : fs p = ReadOutcome.ok f) : readMCPFile fs p = some f := by
  unfold readMCPFile
  rw [h]

/-- The provider state loadMCPs produces, by case on the open workspace. -/
theorem loadMCPs_fst (env : ProviderEnv) (s : ProviderState) :
    (loadMCPs env s).1 =
      match env.workspaceFolders with
      | [] =>
          { s with
            globalMCPs := enrichMCPData env.randG 0
              (mcpFileToItems (readMCPFile env.fs (effectiveGlobalPath env s)) true)
            localMCPs := [] }
      | w :: _ =>
          { s with
            globalMCPs := enrichMCPData env.randG 0
              (mcpFileToItems (readMCPFile env.fs (effectiveGlobalPath env s)) true)
            localMCPs := enrichMCPData env.randL 0
              (mcpFileToItems (readMCPFile env.fs (effectiveLocalPath env s w)) false) } := by
  unfold loadMCPs
  cases env.workspaceFolders <;> rfl

/-- C1: for every path, reading a scope's configuration file returns the
parsed file exactly on a successful read-and-parse and returns absent on
any I/O error or parse error; being a total function of the read outcome,
it never propagates an error to its caller. -/
theorem readMCPFile_fail_open (fs : FileSystem) (path : String) :
    (∀ f, readMCPFile fs path = some f ↔ fs path = ReadOutcome.ok f) ∧
    (readMCPFile fs path = none ↔
      fs path = ReadOutcome.ioError ∨ fs path = ReadOutcome.parseError) := by
  unfold readMCPFile
  cases h : fs path <;> simp

/-- C4: lookup by name searches the local scope before the global scope:
when a local entry bears the name, the result is a local entry with that
name (never the global one); when no local entry bears the name, any
result is a global entry with that name, and one is found whenever the
global scope holds one. -/
theorem getMCPByName_local_shadows (s : ProviderState) (n : String) :
    ((∃ m, m ∈ s.localMCPs ∧ m.name = n) →
      ∃ m, getMCPByName s n = some m ∧ m ∈ s.localMCPs ∧ m.name = n) ∧
    ((∀ m, m ∈ s.localMCPs → m.name ≠ n) →
      ∀ m, getMCPByName s n = some m → m ∈ s.globalMCPs ∧ m.name = n) ∧
    ((∀ m, m ∈ s.localMCPs → m.name ≠ n) →
      (∃ m, m ∈ s.globalMCPs ∧ m.name = n) →
      ∃ m, getMCPByName s n = some m ∧ m ∈ s.globalMCPs ∧ m.name = n) := by
  refine ⟨?_, ?_, ?_⟩
  · rintro ⟨m, hm, hname⟩
    have hs : (s.localMCPs.find? (fun m => m.name == n)).isSome := by
      rw [List.find?_isSome]
      exact ⟨m, hm, by simp [hname]⟩
    obtain ⟨m1, hm1⟩ := Option.isSome_iff_exists.mp hs
    refine ⟨m1, ?_, List.mem_of_find?_eq_some hm1, by simpa using List.find?_some hm1⟩
    unfold getMCPByName
    rw [List.find?_append, hm1]
    rfl
  · intro hnone m hfind
    have h0 : s.localMCPs.find? (fun m => m.name == n) = none := by
      rw [List.find?_eq_none]
      intro x hx
      simpa using hnone x hx
    unfold getMCPByName at hfind
    rw [List.find?_append, h0, Option.none_or] at hfind
    exact ⟨List.mem_of_find?_eq_some hfind, by simpa using List.find?_some hfind⟩
  · rintro hnone ⟨m, hm, hname⟩
    have h0 : s.localMCPs.find? (fun m => m.name == n) = none := by
      rw [List.find?_eq_none]
      intro x hx
      simpa using hnone x hx
    have hs : (s.globalMCPs.find? (fun m => m.name == n)).isSome := by
      rw [List.find?_isSome]
      exact ⟨m, hm, by simp [hname]⟩
    obtain ⟨m1, hm1⟩ := Option.isSome_iff_exists.mp hs
    refine ⟨m1, ?_, List.mem_of_find?_eq_some hm1, by simpa using List.find?_some hm1⟩
    unfold getMCPByName
    rw [List.find?_append, h0, Option.none_or, hm1]

/-- C9: setFilter changes only the stored filter; the loaded entry
sequences and path overrides are untouched, and a subsequent load yields
the same entries whatever the stored filter is. -/
theorem setFilter_pure (s : ProviderState) (f : MCPFilter) :
    (setFilter s f).1.globalMCPs = s.globalMCPs ∧
    (setFilter s f).1.localMCPs = s.localMCPs ∧
    (setFilter s f).1.customGlobalPath = s.customGlobalPath ∧
    (setFilter s f).1.customLocalPath = s.customLocalPath ∧
    (setFilter s f).1.filter = f ∧
    (∀ env : ProviderEnv,
      (loadMCPs env (setFilter s f).1).1.globalMCPs = (loadMCPs env s).1.globalMCPs ∧
      (loadMCPs env (setFilter s f).1).1.localMCPs = (loadMCPs env s).1.localMCPs) := by
  refine ⟨rfl, rfl, rfl, rfl, rfl, ?_⟩
  intro env
  rw [loadMCPs_fst, loadMCPs_fst]
  cases env.workspaceFolders <;>
    simp [setFilter, effectiveGlobalPath, effectiveLocalPath]

/-- C3: each loadMCPs invocation publishes exactly one change
notification, and it fires only after the global read, the local
resolution (a read when a workspace is open, fail-open empty otherwise)
and both entry-sequence replacements. -/
theorem loadMCPs_single_notify (env : ProviderEnv) (s : ProviderState) :
    (loadMCPs env s).2.count ProviderEvent.notify = 1 ∧
    ∃ pre, (loadMCPs env s).2 = pre ++ [ProviderEvent.notify] ∧
      ProviderEvent.notify ∉ pre ∧
      ProviderEvent.setScope true ∈ pre ∧
      ProviderEvent.setScope false ∈ pre ∧
      ProviderEvent.readScope true ∈ pre ∧
      (env.workspaceFolders ≠ [] → ProviderEvent.readScope false ∈ pre) := by
  cases h : env.workspaceFolders with
  | nil =>
      have h2 : (loadMCPs env s).2 =
          [ProviderEvent.readScope true, ProviderEvent.setScope true,
           ProviderEvent.setScope false, ProviderEvent.notify] := by
        unfold loadMCPs
        rw [h]
      rw [h2]
      refine ⟨by decide,
        [ProviderEvent.readScope true, ProviderEvent.setScope true,
         ProviderEvent.setScope false], by decide, by decide, by decide,
        by decide, by decide, fun hne => absurd rfl hne⟩
  | cons w ws =>
      have h2 : (loadMCPs env s).2 =
          [ProviderEvent.readScope true, ProviderEvent.setScope true,
           ProviderEvent.readScope false, ProviderEvent.setScope false,
           ProviderEvent.notify] := by
        unfold loadMCPs
        rw [h]
      rw [h2]
      refine ⟨by decide,
        [ProviderEvent.readScope true, ProviderEvent.setScope true,
         ProviderEvent.readScope false, ProviderEvent.setScope false],
        by decide, by decide, by decide, by decide, by decide,
        fun _ => by decide⟩

/-- C2: with a workspace open, when one scope's file read fails (absent or
malformed) and the other scope's read succeeds, loadMCPs still produces
the valid scope's entries exactly from its own file, and the failing
scope fails open to no entries; the failure of one read never affects the
entries loaded for the other scope. -/
theorem loadMCPs_scope_isolation (env : ProviderEnv) (s : ProviderState)
    (w : String) (ws : List String) (gf lf : MCPFile)
    (hw : env.workspaceFolders = w :: ws) :
    (readMCPFile env.fs (effectiveGlobalPath env s) = none →
      env.fs (effectiveLocalPath env s w) = ReadOutcome.ok lf →
      (loadMCPs env s).1.globalMCPs = [] ∧
      (loadMCPs env s).1.localMCPs =
        enrichMCPData env.randL 0 (mcpFileToItems (some lf) false)) ∧
    (env.fs (effectiveGlobalPath env s) = ReadOutcome.ok gf →
      readMCPFile env.fs (effectiveLocalPath env s w) = none →
      (loadMCPs env s).1.globalMCPs =
        enrichMCPData env.randG 0 (mcpFileToItems (some gf) true) ∧
      (loadMCPs env s).1.localMCPs = []) := by
  have h1 : (loadMCPs env s).1 =
      { s with
        globalMCPs := enrichMCPData env.randG 0
          (mcpFileToItems (readMCPFile env.fs (effectiveGlobalPath env s)) true)
        localMCPs := enrichMCPData env.randL 0
          (mcpFileToItems (readMCPFile env.fs (effectiveLocalPath env s w)) false) } := by
    rw [loadMCPs_fst, hw]
  constructor
  · intro hg hl
    rw [h1, hg, readMCPFile_ok hl]
    exact ⟨rfl, rfl⟩
  · intro hg hl
    rw [h1, hl, readMCPFile_ok hg]
    exact ⟨rfl, rfl⟩

/-- C10: when no workspace folder is open, loadMCPs sets the local entry
sequence to empty (whatever custom local path is stored), still loads the
global scope from its file, and name lookup on the resulting state can
only resolve to a global entry. -/
theorem loadMCPs_no_workspace (env : ProviderEnv) (s : ProviderState)
    (hw : env.workspaceFolders = []) :
    (loadMCPs env s).1.localMCPs = [] ∧
    (loadMCPs env s).1.globalMCPs =
      enrichMCPData env.randG 0
        (mcpFileToItems (readMCPFile env.fs (effectiveGlobalPath env s)) true) ∧
    ∀ n m, getMCPByName (loadMCPs env s).1 n = some m →
      m ∈ (loadMCPs env s).1.globalMCPs := by
  have h1 : (loadMCPs env s).1 =
      { s with
        globalMCPs := enrichMCPData env.randG 0
          (mcpFileToItems (readMCPFile env.fs (effectiveGlobalPath env s)) true)
        localMCPs := [] } := by
    rw [loadMCPs_fst, hw]
  refine ⟨by rw [h1], by rw [h1], ?_⟩
  intro n m hm
  rw [h1] at hm ⊢
  unfold getMCPByName at hm
  simp only [List.nil_append] at hm
  exact List.mem_of_find?_eq_some hm

/-- A concrete stdio server configuration, as in the spec's section 8
scenario. -/
def sampleConfig : MCPConfig :=
  { type := MCPTransport.stdio, command := "echo", args := some ["hi"] }

/-- A concrete scope file defining one server named x. -/
def sampleFileX : MCPFile := { servers := [("x", sampleConfig)] }

/-- The provider state right after construction. -/
def emptyProviderState : ProviderState :=
  { globalMCPs := [], localMCPs := [], filter := MCPFilter.both,
    customGlobalPath := none, customLocalPath := none }

/-- A concrete environment whose global file is malformed and whose local
file is valid. -/
def isolationEnv : ProviderEnv :=
  { fs := fun p =>
      if p = "/g/mcp.json" then ReadOutcome.parseError
      else if p = "/w/.vscode/mcp.json" then ReadOutcome.ok sampleFileX
      else ReadOutcome.ioError
    workspaceFolders := ["/w"]
    globalDefaultPath := "/g/mcp.json"
    localDefaultPath := fun w => w ++ "/.vscode/mcp.json"
    randG := fun _ => 0
    randL := fun _ => 0 }

theorem loadMCPs_scope_isolation_witness :
    isolationEnv.workspaceFolders = "/w" :: [] ∧
    readMCPFile isolationEnv.fs (effectiveGlobalPath isolationEnv emptyProviderState) = none ∧
    isolationEnv.fs (effectiveLocalPath isolationEnv emptyProviderState "/w") =
      ReadOutcome.ok sampleFileX ∧
    ((loadMCPs isolationEnv emptyProviderState).1.globalMCPs = [] ∧
     (loadMCPs isolationEnv emptyProviderState).1.localMCPs =
       enrichMCPData isolationEnv.randL 0 (mcpFileToItems (some sampleFileX) false)) := by
  have h1 : readMCPFile isolationEnv.fs
      (effectiveGlobalPath isolationEnv emptyProviderState) = none := by decide
  have h2 : isolationEnv.fs (effectiveLocalPath isolationEnv emptyProviderState "/w") =
      ReadOutcome.ok sampleFileX := by decide
  exact ⟨rfl, h1, h2,
    (loadMCPs_scope_isolation isolationEnv emptyProviderState "/w" [] sampleFileX
      sampleFileX rfl).1 h1 h2⟩

/-- A concrete environment with no open workspace folder. -/
def noWorkspaceEnv : ProviderEnv :=
  { fs := fun _ => ReadOutcome.ok sampleFileX
    workspaceFolders := []
    globalDefaultPath := "/g/mcp.json"
    localDefaultPath := fun w => w ++ "/.vscode/mcp.json"
    randG := fun _ => 0
    randL := fun _ => 0 }

/-- A provider state in which a custom local path has been set. -/
def customLocalState : ProviderState :=
  { emptyProviderState with customLocalPath := some "/custom/mcp.json" }

theorem loadMCPs_no_workspace_witness :
    noWorkspaceEnv.workspaceFolders = [] ∧
    (loadMCPs noWorkspaceEnv customLocalState).1.localMCPs = [] := by
  exact ⟨rfl, (loadMCPs_no_workspace noWorkspaceEnv customLocalState rfl).1⟩

/-- A front match survives appending more characters. -/
theorem leadsWith_append (p s t : List Char) (h : leadsWith p s = true) :
    leadsWith p (s ++ t) = true := by
  induction p generalizing s with
  | nil => rfl
  | cons a ps ih =>
      cases s with
      | nil => simp [leadsWith] at h
      | cons c cs =>
          simp only [leadsWith, Bool.and_eq_true] at h
          simp only [List.cons_append, leadsWith, Bool.and_eq_true]
          exact ⟨h.1, ih cs h.2⟩

/-- The empty pattern occurs in every character list. -/
theorem hasSeg_nil_pat (l : List Char) : hasSeg [] l = true := by
  cases l <;> simp [hasSeg, leadsWith]

/-- A segment found in the first part is found in the whole. -/
theorem hasSeg_append_left (pat a b : List Char) (h : hasSeg pat a = true) :
    hasSeg pat (a ++ b) = true := by
  induction a with
  | nil =>
      cases pat with
      | nil => exact hasSeg_nil_pat b
      | cons x xs => simp [hasSeg, leadsWith] at h
  | cons c cs ih =>
      simp only [hasSeg, Bool.or_eq_true] at h
      simp only [List.cons_append, hasSeg, Bool.or_eq_true]
      rcases h with h | h
      · exact Or.inl (leadsWith_append _ _ _ h)
      · exact Or.inr (ih h)

/-- A pattern whose first character never occurs in the list is not a
segment of it. -/
theorem hasSeg_eq_false_of_head_notin (p : Char) (ps s : List Char)
    (h : p ∉ s) : hasSeg (p :: ps) s = false := by
  induction s with
  | nil => rfl
  | cons c cs ih =>
      have hpc : (p == c) = false :=
        beq_eq_false_iff_ne.mpr (fun e => h (e ▸ List.mem_cons_self c cs))
      have hcs : p ∉ cs := fun hm => h (List.mem_cons_of_mem c hm)
      simp [hasSeg, leadsWith, hpc, ih hcs]

/-- No decimal digit character is the letter G. -/
theorem digitChar_ne_G (d : Nat) : digitChar d ≠ 'G' := by
  unfold digitChar
  split_ifs <;> decide

/-- The decimal rendering of a number never contains the letter G. -/
theorem natDigitsAux_not_G (fuel n : Nat) : 'G' ∉ natDigitsAux fuel n := by
  induction fuel generalizing n with
  | zero => simp [natDigitsAux]
  | succ f ih =>
      by_cases h : n < 10
      · simp only [natDigitsAux, if_pos h, List.mem_singleton]
        exact fun e => digitChar_ne_G n e.symm
      · simp only [natDigitsAux, if_neg h, List.mem_append, List.mem_singleton]
        rintro (hh | hh)
        · exact ih _ hh
        · exact digitChar_ne_G (n % 10) hh.symm

/-- The global section's label always includes the text Global, whatever
the interpolated count is. -/
theorem strIncludes_globalSectionLabel (n : Nat) :
    strIncludes (globalSectionLabel n) "Global" = true := by
  unfold strIncludes globalSectionLabel
  rw [String.data_append, String.data_append, List.append_assoc]
  exact hasSeg_append_left _ _ _ (by decide)

/-- The local section's label never includes the text Global, whatever
the interpolated count is. -/
theorem strIncludes_localSectionLabel (n : Nat) :
    strIncludes (localSectionLabel n) "Global" = false := by
  unfold strIncludes localSectionLabel
  rw [show "Global".data = 'G' :: ['l', 'o', 'b', 'a', 'l'] from rfl]
  apply hasSeg_eq_false_of_head_notin
  rw [String.data_append, String.data_append]
  simp only [List.mem_append, natToString, String.mk]
  rintro ((hh | hh) | hh)
  · revert hh
    decide
  · exact natDigitsAux_not_G _ _ hh
  · revert hh
    decide

/-- Extracting the entries back out of the card rows (dropping the
separators) recovers the entry sequence. -/
theorem cardsWithSeps_entries (l : List MCPItem) :
    (cardsWithSeps l).filterMap (fun c =>
      match c with
      | CardItem.card m => some m
      | CardItem.separator => none) = l := by
  induction l with
  | nil => rfl
  | cons m ms ih =>
      cases ms with
      | nil => rfl
      | cons m2 ms2 =>
          simp only [cardsWithSeps, List.filterMap_cons]
          simpa using ih

/-- The entries the view hands out are exactly the scopes the stored
filter admits, global scope first. -/
theorem cardEntriesOf_eq (s : ProviderState) :
    cardEntriesOf s =
      (if s.filter = MCPFilter.both ∨ s.filter = MCPFilter.global
        then s.globalMCPs else []) ++
      (if s.filter = MCPFilter.both ∨ s.filter = MCPFilter.local
        then s.localMCPs else []) := by
  unfold cardEntriesOf getRootSections
  by_cases hgf : s.filter = MCPFilter.both ∨ s.filter = MCPFilter.global <;>
    by_cases hlf : s.filter = MCPFilter.both ∨ s.filter = MCPFilter.local <;>
    by_cases hg : 0 < s.globalMCPs.length <;>
    by_cases hl : 0 < s.localMCPs.length
  all_goals
    try have hg' : s.globalMCPs = [] := List.length_eq_zero.mp (Nat.eq_zero_of_not_pos hg)
  all_goals
    try have hl' : s.localMCPs = [] := List.length_eq_zero.mp (Nat.eq_zero_of_not_pos hl)
  all_goals
    simp [hgf, hlf, hg, hl, getMCPCards, strIncludes_globalSectionLabel,
      strIncludes_localSectionLabel, cardsWithSeps_entries, *]

/-- Enrichment does not change how many entries satisfy a predicate that
ignores the enriched fields. -/
theorem enrichMCPData_countP (rand : Nat → Nat) (i : Nat) (l : List MCPItem)
    (p : MCPItem → Bool) (hp : ∀ j m, p (enrichOne rand j m) = p m) :
    (enrichMCPData rand i l).countP p = l.countP p := by
  induction l generalizing i with
  | nil => rfl
  | cons m ms ih =>
      simp only [enrichMCPData, List.countP_cons, hp, ih]

/-- Counting converted entries is counting the file's server pairs. -/
theorem mcpFileToItems_countP (f : MCPFile) (g : Bool) (p : MCPItem → Bool) :
    (mcpFileToItems (some f) g).countP p =
      f.servers.countP (fun q =>
        p { name := q.1, config := q.2, isGlobal := g,
            status := some MCPStatus.unknown }) := by
  unfold mcpFileToItems
  rw [List.countP_map]
  rfl

/-- With pairwise-distinct keys, a key present in the servers mapping is
hit exactly once. -/
theorem servers_count_key (f : MCPFile) (x : String) (c : MCPConfig)
    (hnd : (f.servers.map Prod.fst).Nodup) (hc : (x, c) ∈ f.servers) :
    f.servers.countP (fun q => q.1 == x) = 1 := by
  have hx : x ∈ f.servers.map Prod.fst := List.mem_map.mpr ⟨(x, c), hc, rfl⟩
  have h1 : (f.servers.map Prod.fst).count x = 1 :=
    List.count_eq_one_of_mem hnd hx
  rw [List.count_eq_countP, List.countP_map] at h1
  exact h1

/-- C5: when both scope files define a server named x, after a load the
merged registry holds two distinct entries for x, one per scope: the
both view shows one global-tagged and one local-tagged entry named x, the
global-only view shows exactly the global one, and the local-only view
exactly the local one; entries are never deduplicated across scopes. -/
theorem loadMCPs_preserves_cross_scope_duplicates
    (env : ProviderEnv) (s : ProviderState) (w : String) (ws : List String)
    (gf lf : MCPFile) (x : String) (cg cl : MCPConfig)
    (hw : env.workspaceFolders = w :: ws)
    (hg : env.fs (effectiveGlobalPath env s) = ReadOutcome.ok gf)
    (hl : env.fs (effectiveLocalPath env s w) = ReadOutcome.ok lf)
    (hgx : (x, cg) ∈ gf.servers) (hlx : (x, cl) ∈ lf.servers)
    (hgnd : (gf.servers.map Prod.fst).Nodup)
    (hlnd : (lf.servers.map Prod.fst).Nodup) :
    ((cardEntriesOf { (loadMCPs env s).1 with filter := MCPFilter.both }).countP
        (fun m => m.name == x && m.isGlobal) = 1 ∧
     (cardEntriesOf { (loadMCPs env s).1 with filter := MCPFilter.both }).countP
        (fun m => m.name == x && !m.isGlobal) = 1) ∧
    ((cardEntriesOf { (loadMCPs env s).1 with filter := MCPFilter.global }).countP
        (fun m => m.name == x) = 1 ∧
     (cardEntriesOf { (loadMCPs env s).1 with filter := MCPFilter.global }).countP
        (fun m => m.name == x && !m.isGlobal) = 0) ∧
    ((cardEntriesOf { (loadMCPs env s).1 with filter := MCPFilter.local }).countP
        (fun m => m.name == x) = 1 ∧
     (cardEntriesOf { (loadMCPs env s).1 with filter := MCPFilter.local }).countP
        (fun m => m.name == x && m.isGlobal) = 0) := by
  have h1 : (loadMCPs env s).1 =
      { s with
        globalMCPs := enrichMCPData env.randG 0
          (mcpFileToItems (readMCPFile env.fs (effectiveGlobalPath env s)) true)
        localMCPs := enrichMCPData env.randL 0
          (mcpFileToItems (readMCPFile env.fs (effectiveLocalPath env s w)) false) } := by
    rw [loadMCPs_fst, hw]
  have hGspec : (loadMCPs env s).1.globalMCPs =
      enrichMCPData env.randG 0 (mcpFileToItems (some gf) true) := by
    rw [h1, readMCPFile_ok hg]
  have hLspec : (loadMCPs env s).1.localMCPs =
      enrichMCPData env.randL 0 (mcpFileToItems (some lf) false) := by
    rw [h1, readMCPFile_ok hl]
  -- scope-level counts for the three predicates
  have hG1 : (loadMCPs env s).1.globalMCPs.countP (fun m => m.name == x && m.isGlobal) = 1 := by
    rw [hGspec, enrichMCPData_countP _ _ _ (fun m => m.name == x && m.isGlobal) (fun j m => rfl), mcpFileToItems_countP]
    show gf.servers.countP (fun q => q.1 == x && true) = 1
    simp only [Bool.and_true]
    exact servers_count_key gf x cg hgnd hgx
  have hG2 : (loadMCPs env s).1.globalMCPs.countP (fun m => m.name == x && !m.isGlobal) = 0 := by
    rw [hGspec, enrichMCPData_countP _ _ _ (fun m => m.name == x && !m.isGlobal) (fun j m => rfl), mcpFileToItems_countP]
    show gf.servers.countP (fun q => q.1 == x && !true) = 0
    simp
  have hG3 : (loadMCPs env s).1.globalMCPs.countP (fun m => m.name == x) = 1 := by
    rw [hGspec, enrichMCPData_countP _ _ _ (fun m => m.name == x) (fun j m => rfl), mcpFileToItems_countP]
    show gf.servers.countP (fun q => q.1 == x) = 1
    exact servers_count_key gf x cg hgnd hgx
  have hL1 : (loadMCPs env s).1.localMCPs.countP (fun m => m.name == x && !m.isGlobal) = 1 := by
    rw [hLspec, enrichMCPData_countP _ _ _ (fun m => m.name == x && !m.isGlobal) (fun j m => rfl), mcpFileToItems_countP]
    show lf.servers.countP (fun q => q.1 == x && !false) = 1
    simp only [Bool.not_false, Bool.and_true]
    exact servers_count_key lf x cl hlnd hlx
  have hL2 : (loadMCPs env s).1.localMCPs.countP (fun m => m.name == x && m.isGlobal) = 0 := by
    rw [hLspec, enrichMCPData_countP _ _ _ (fun m => m.name == x && m.isGlobal) (fun j m => rfl), mcpFileToItems_countP]
    show lf.servers.countP (fun q => q.1 == x && false) = 0
    simp
  have hL3 : (loadMCPs env s).1.localMCPs.countP (fun m => m.name == x) = 1 := by
    rw [hLspec, enrichMCPData_countP _ _ _ (fun m => m.name == x) (fun j m => rfl), mcpFileToItems_countP]
    show lf.servers.countP (fun q => q.1 == x) = 1
    exact servers_count_key lf x cl hlnd hlx
  -- view-level entry lists
  have hboth : cardEntriesOf { (loadMCPs env s).1 with filter := MCPFilter.both } =
      (loadMCPs env s).1.globalMCPs ++ (loadMCPs env s).1.localMCPs := by
    rw [cardEntriesOf_eq]
    simp
  have hglob : cardEntriesOf { (loadMCPs env s).1 with filter := MCPFilter.global } =
      (loadMCPs env s).1.globalMCPs := by
    rw [cardEntriesOf_eq]
    simp
  have hloc : cardEntriesOf { (loadMCPs env s).1 with filter := MCPFilter.local } =
      (loadMCPs env s).1.localMCPs := by
    rw [cardEntriesOf_eq]
    simp
  refine ⟨⟨?_, ?_⟩, ⟨?_, ?_⟩, ⟨?_, ?_⟩⟩
  · rw [hboth, List.countP_append, hG1, hL2]
  · rw [hboth, List.countP_append, hG2, hL1]
  · rw [hglob, hG3]
  · rw [hglob, hG2]
  · rw [hloc, hL3]
  · rw [hloc, hL2]

/-- A concrete environment whose global and local files both define a
server named x. -/
def dupEnv : ProviderEnv :=
  { fs := fun p =>
      if p = "/g/mcp.json" then ReadOutcome.ok sampleFileX
      else if p = "/w/.vscode/mcp.json" then ReadOutcome.ok sampleFileX
      else ReadOutcome.ioError
    workspaceFolders := ["/w"]
    globalDefaultPath := "/g/mcp.json"
    localDefaultPath := fun w => w ++ "/.vscode/mcp.json"
    randG := fun _ => 0
    randL := fun _ => 0 }

theorem loadMCPs_preserves_cross_scope_duplicates_witness :
    dupEnv.workspaceFolders = "/w" :: [] ∧
    dupEnv.fs (effectiveGlobalPath dupEnv emptyProviderState) = ReadOutcome.ok sampleFileX ∧
    ("x", sampleConfig) ∈ sampleFileX.servers ∧
    (sampleFileX.servers.map Prod.fst).Nodup ∧
    ((cardEntriesOf { (loadMCPs dupEnv emptyProviderState).1 with
        filter := MCPFilter.both }).countP
      (fun m => m.name == "x" && m.isGlobal) = 1 ∧
     (cardEntriesOf { (loadMCPs dupEnv emptyProviderState).1 with
        filter := MCPFilter.both }).countP
      (fun m => m.name == "x" && !m.isGlobal) = 1) := by
  have h := loadMCPs_preserves_cross_scope_duplicates dupEnv emptyProviderState
    "/w" [] sampleFileX sampleFileX "x" sampleConfig sampleConfig rfl
    (by decide) (by decide) (by decide) (by decide) (by decide) (by decide)
  exact ⟨rfl, by decide, by decide, by decide, h.1⟩

/-- Lookup against a cons of the handle list. -/
theorem lookupProc_cons (q : String × Nat) (ps : List (String × Nat)) (n : String) :
    lookupProc (q :: ps) n = if q.1 = n then some q.2 else lookupProc ps n := by
  by_cases h : q.1 = n
  · rw [if_pos h]
    unfold lookupProc
    rw [List.find?_cons_of_pos _ (by simp [h])]
    rfl
  · rw [if_neg h]
    unfold lookupProc
    rw [List.find?_cons_of_neg _ (by simp [h])]

/-- Removal against a cons of the handle list. -/
theorem removeProc_cons (q : String × Nat) (ps : List (String × Nat)) (x : String) :
    removeProc (q :: ps) x =
      if q.1 = x then removeProc ps x else q :: removeProc ps x := by
  unfold removeProc
  rw [List.filter_cons]
  by_cases h : q.1 = x <;> simp [h]

/-- Lookup after removing a name: gone for that name, untouched for the
others. -/
theorem lookupProc_removeProc (ps : List (String × Nat)) (x n : String) :
    lookupProc (removeProc ps x) n = if x = n then none else lookupProc ps n := by
  induction ps with
  | nil => by_cases h : x = n <;> simp [removeProc, lookupProc, h]
  | cons q qs ih =>
      rw [removeProc_cons]
      by_cases hqx : q.1 = x
      · rw [if_pos hqx, ih]
        by_cases hxn : x = n
        · simp [hxn]
        · rw [if_neg hxn, if_neg hxn, lookupProc_cons,
            if_neg (by rw [hqx]; exact hxn)]
      · rw [if_neg hqx, lookupProc_cons, lookupProc_cons, ih]
        by_cases hq1n : q.1 = n <;> by_cases hxn : x = n
        · exact absurd (hq1n.trans hxn.symm) hqx
        · simp [hq1n, hxn]
        · simp [hq1n, hxn]
        · simp [hq1n, hxn]

/-- The exit handler preserves supervisor well-formedness. -/
theorem supWF_onProcessExit (x : String) (s : Supervisor) (h : SupWF s) :
    SupWF (onProcessExit x s) := by
  unfold onProcessExit
  cases hx : lookupProc s.procs x with
  | none => exact h
  | some p0 =>
      constructor
      · intro n
        simp only [updateFn, lookupProc_removeProc]
        by_cases hn : n = x
        · subst hn
          simp only [if_pos rfl]
          cases hr : s.stopReq n <;> simp
        · rw [if_neg hn, if_neg (fun e => hn e.symm)]
          exact h.running_iff n
      · intro n p hp
        simp only [lookupProc_removeProc] at hp
        by_cases hxn : x = n
        · rw [if_pos hxn] at hp
          exact absurd hp (by simp)
        · rw [if_neg hxn] at hp
          exact h.pid_lt n p hp

/-- Start preserves supervisor well-formedness. -/
theorem supWF_startMCPServer (sp : Bool) (m : MCPItem) (s : Supervisor)
    (h : SupWF s) : SupWF (startMCPServer sp m s).1 := by
  unfold startMCPServer
  by_cases hd : m.config.disabled = some true
  · simp only [if_pos hd]
    exact h
  · simp only [if_neg hd]
    cases hl : lookupProc s.procs m.name with
    | some p0 => exact h
    | none =>
        by_cases hsp : sp = true
        · simp only [hsp, if_true]
          constructor
          · intro n
            rw [lookupProc_cons]
            simp only [updateFn]
            by_cases hn : n = m.name
            · subst hn
              simp
            · rw [if_neg hn, if_neg (fun e => hn e.symm)]
              exact h.running_iff n
          · intro n p hp
            rw [lookupProc_cons] at hp
            by_cases hmn : m.name = n
            · rw [if_pos hmn] at hp
              have hps : s.nextPid = p := by simpa using hp
              show p < s.nextPid + 1
              omega
            · rw [if_neg hmn] at hp
              exact Nat.lt_succ_of_lt (h.pid_lt n p hp)
        · have hsp' : sp = false := by
            cases sp
            · rfl
            · exact absurd rfl hsp
          simp only [hsp', Bool.false_eq_true, if_false]
          constructor
          · intro n
            rw [lookupProc_removeProc]
            simp only [updateFn]
            by_cases hn : n = m.name
            · subst hn
              simp
            · rw [if_neg hn, if_neg hn, if_neg (fun e => hn e.symm)]
              rw [lookupProc_cons, if_neg (fun e => hn e.symm)]
              exact h.running_iff n
          · intro n p hp
            rw [lookupProc_removeProc] at hp
            by_cases hmn : m.name = n
            · rw [if_pos hmn] at hp
              exact absurd hp (by simp)
            · rw [if_neg hmn, lookupProc_cons, if_neg hmn] at hp
              exact Nat.lt_succ_of_lt (h.pid_lt n p hp)

/-- Stop preserves supervisor well-formedness. -/
theorem supWF_stopByName (e k : Bool) (x : String) (s : Supervisor)
    (h : SupWF s) : SupWF (stopByName e k x s).1 := by
  unfold stopByName
  cases hx : lookupProc s.procs x with
  | none => exact h
  | some p0 =>
      have h1 : SupWF { s with stopReq := updateFn s.stopReq x true } :=
        ⟨h.running_iff, h.pid_lt⟩
      by_cases he : e = true
      · simp only [he, if_true]
        exact supWF_onProcessExit x _ h1
      · have he' : e = false := by
          cases e
          · rfl
          · exact absurd rfl he
        by_cases hk : k = true
        · simp only [he', hk, Bool.false_eq_true, if_false, if_true]
          exact supWF_onProcessExit x _ h1
        · have hk' : k = false := by
            cases k
            · rfl
            · exact absurd rfl hk
          simp only [he', hk', Bool.false_eq_true, if_false]
          exact h1

/-- Restart preserves supervisor well-formedness. -/
theorem supWF_restartMCPServer (e k sp : Bool) (m : MCPItem) (s : Supervisor)
    (h : SupWF s) : SupWF (restartMCPServer e k sp m s).1 := by
  unfold restartMCPServer
  cases hx : lookupProc s.procs m.name with
  | none => exact supWF_startMCPServer sp m s h
  | some p0 =>
      by_cases hr : (stopMCPServer e k m s).2 = true
      · simp only [hr, if_true]
        exact supWF_startMCPServer sp m _ (supWF_stopByName e k m.name s h)
      · have hr' : (stopMCPServer e k m s).2 = false := by
          cases hv : (stopMCPServer e k m s).2
          · rfl
          · exact absurd hv hr
        simp only [hr', Bool.false_eq_true, if_false]
        exact supWF_stopByName e k m.name s h

/-- The stop-all iteration preserves supervisor well-formedness. -/
theorem supWF_stopAllGo (exits kills : String → Bool) (ns : List String)
    (s : Supervisor) (h : SupWF s) : SupWF (stopAllGo exits kills ns s).1 := by
  induction ns generalizing s with
  | nil => exact h
  | cons n ns ih =>
      simp only [stopAllGo]
      exact ih _ (supWF_stopByName _ _ _ _ h)

/-- Every supervisor operation preserves well-formedness. -/
theorem supWF_applyAction (a : SupAction) (s : Supervisor) (h : SupWF s) :
    SupWF (applyAction a s) := by
  cases a with
  | startA sp m => exact supWF_startMCPServer sp m s h
  | stopA e k m => exact supWF_stopByName e k m.name s h
  | restartA e k sp m => exact supWF_restartMCPServer e k sp m s h
  | exitA n => exact supWF_onProcessExit n s h
  | stopAllA exits kills => exact supWF_stopAllGo exits kills _ s h

/-- Last-or-default distributes over list append. -/
theorem getLastD_append_eq {α : Type} (l1 l2 : List α) (d : α) :
    (l1 ++ l2).getLastD d = l2.getLastD (l1.getLastD d) := by
  induction l1 generalizing d with
  | nil => rfl
  | cons a l ih =>
      rw [List.cons_append, List.getLastD_cons, List.getLastD_cons, ih]

/-- Two chains compose across an append when the second starts at the
first one's last point. -/
theorem chain_append_of {α : Type} (R : α → α → Prop) (l2 : List α) :
    ∀ (l1 : List α) (a : α), List.Chain R a l1 →
      List.Chain R (l1.getLastD a) l2 → List.Chain R a (l1 ++ l2) := by
  intro l1
  induction l1 with
  | nil =>
      intro a _ h2
      exact h2
  | cons b l ih =>
      intro a h1 h2
      cases h1 with
      | cons hab h1' =>
          rw [List.getLastD_cons] at h2
          exact List.Chain.cons hab (ih b h1' h2)

/-- Every status other than running may step to running. -/
theorem allowedEdge_to_running (a : MCPStatus) (ha : a ≠ MCPStatus.running) :
    allowedEdge a MCPStatus.running := by
  cases a
  · exact absurd rfl ha
  · exact Or.inr (Or.inl ⟨rfl, rfl⟩)
  · exact Or.inr (Or.inr (Or.inl ⟨rfl, rfl⟩))
  · exact Or.inl ⟨rfl, rfl⟩

/-- Running may step to stopped. -/
theorem allowedEdge_run_stop : allowedEdge MCPStatus.running MCPStatus.stopped :=
  Or.inr (Or.inr (Or.inr (Or.inl ⟨rfl, rfl⟩)))

/-- Running may step to error. -/
theorem allowedEdge_run_err : allowedEdge MCPStatus.running MCPStatus.error :=
  Or.inr (Or.inr (Or.inr (Or.inr ⟨rfl, rfl⟩)))

/-- The status start leaves on an entry is the last of its recorded
writes. -/
theorem statusAfter_start (sp : Bool) (m : MCPItem) (s : Supervisor) (n : String) :
    (startMCPServer sp m s).1.status n =
      (startWrites sp m s n).getLastD (s.status n) := by
  unfold startMCPServer startWrites
  by_cases hd : m.config.disabled = some true
  · simp [hd]
  · simp only [if_neg hd]
    cases hl : lookupProc s.procs m.name with
    | some p0 => rfl
    | none =>
        cases sp
        · simp only [Bool.false_eq_true, if_false]
          by_cases hn : n = m.name
          · subst hn
            simp [updateFn]
          · simp [updateFn, hn]
        · simp only [if_true]
          by_cases hn : n = m.name
          · subst hn
            simp [updateFn]
          · simp [updateFn, hn]

/-- The status an exit event leaves on an entry is the last of its
recorded writes. -/
theorem statusAfter_exit (x : String) (s : Supervisor) (n : String) :
    (onProcessExit x s).status n = (exitWrites x s n).getLastD (s.status n) := by
  unfold onProcessExit exitWrites
  cases hx : lookupProc s.procs x with
  | none => rfl
  | some p0 =>
      by_cases hn : n = x
      · subst hn
        simp [updateFn]
      · simp [updateFn, hn]

/-- The status stop leaves on an entry is the last of its recorded
writes. -/
theorem statusAfter_stop (e k : Bool) (x : String) (s : Supervisor) (n : String) :
    (stopByName e k x s).1.status n =
      (stopWrites e k x s n).getLastD (s.status n) := by
  unfold stopByName stopWrites
  cases hx : lookupProc s.procs x with
  | none => rfl
  | some p0 =>
      by_cases hn : n = x
      · subst hn
        cases e <;> cases k <;> simp [onProcessExit, hx, updateFn]
      · cases e <;> cases k <;> simp [onProcessExit, hx, updateFn, hn]

/-- The status restart leaves on an entry is the last of its recorded
writes. -/
theorem statusAfter_restart (e k sp : Bool) (m : MCPItem) (s : Supervisor)
    (n : String) :
    (restartMCPServer e k sp m s).1.status n =
      (restartWrites e k sp m s n).getLastD (s.status n) := by
  unfold restartMCPServer restartWrites stopMCPServer
  cases hx : lookupProc s.procs m.name with
  | none => exact statusAfter_start sp m s n
  | some p0 =>
      by_cases hr : (stopByName e k m.name s).2 = true
      · simp only [hr, if_true]
        rw [getLastD_append_eq, statusAfter_start, statusAfter_stop]
      · have hr' : (stopByName e k m.name s).2 = false := by
          cases hv : (stopByName e k m.name s).2
          · rfl
          · exact absurd hv hr
        simp only [hr', Bool.false_eq_true, if_false, List.append_nil]
        exact statusAfter_stop e k m.name s n

/-- The status the stop-all iteration leaves on an entry is the last of
its recorded writes. -/
theorem statusAfter_stopAllGo (exits kills : String → Bool) (ns : List String)
    (s : Supervisor) (n : String) :
    (stopAllGo exits kills ns s).1.status n =
      (stopAllWrites exits kills ns s n).getLastD (s.status n) := by
  induction ns generalizing s with
  | nil => rfl
  | cons x xs ih =>
      simp only [stopAllGo, stopAllWrites]
      rw [getLastD_append_eq, ih, statusAfter_stop]

/-- The status any operation leaves on an entry is the last of its
recorded writes. -/
theorem statusAfter_action (a : SupAction) (s : Supervisor) (n : String) :
    (applyAction a s).status n = (actionWrites a s n).getLastD (s.status n) := by
  cases a with
  | startA sp m => exact statusAfter_start sp m s n
  | stopA e k m => exact statusAfter_stop e k m.name s n
  | restartA e k sp m => exact statusAfter_restart e k sp m s n
  | exitA x => exact statusAfter_exit x s n
  | stopAllA exits kills => exact statusAfter_stopAllGo exits kills _ s n

/-- Start writes only allowed transitions. -/
theorem chain_startWrites (sp : Bool) (m : MCPItem) (s : Supervisor) (n : String)
    (h : SupWF s) : List.Chain allowedEdge (s.status n) (startWrites sp m s n) := by
  unfold startWrites
  by_cases hd : m.config.disabled = some true
  · simp only [if_pos hd]
    exact List.Chain.nil
  · simp only [if_neg hd]
    cases hl : lookupProc s.procs m.name with
    | some p0 => exact List.Chain.nil
    | none =>
        by_cases hn : n = m.name
        · subst hn
          have hnr : s.status m.name ≠ MCPStatus.running := by
            intro e
            have hsome := (h.running_iff m.name).mp e
            rw [hl] at hsome
            simp at hsome
          rw [if_pos rfl]
          cases sp
          · simp only [Bool.false_eq_true, if_false]
            exact List.Chain.cons (allowedEdge_to_running _ hnr)
              (List.Chain.cons allowedEdge_run_err List.Chain.nil)
          · simp only [if_true]
            exact List.Chain.cons (allowedEdge_to_running _ hnr) List.Chain.nil
        · rw [if_neg hn]
          exact List.Chain.nil

/-- An exit event writes only allowed transitions. -/
theorem chain_exitWrites (x : String) (s : Supervisor) (n : String)
    (h : SupWF s) : List.Chain allowedEdge (s.status n) (exitWrites x s n) := by
  unfold exitWrites
  cases hx : lookupProc s.procs x with
  | none => exact List.Chain.nil
  | some p0 =>
      by_cases hn : n = x
      · subst hn
        have hr : s.status n = MCPStatus.running := by
          refine (h.running_iff n).mpr ?_
          rw [hx]
          rfl
        rw [if_pos rfl, hr]
        refine List.Chain.cons ?_ List.Chain.nil
        cases hq : s.stopReq n
        · exact allowedEdge_run_err
        · exact allowedEdge_run_stop
      · rw [if_neg hn]
        exact List.Chain.nil

/-- Stop writes only allowed transitions. -/
theorem chain_stopWrites (e k : Bool) (x : String) (s : Supervisor) (n : String)
    (h : SupWF s) : List.Chain allowedEdge (s.status n) (stopWrites e k x s n) := by
  unfold stopWrites
  cases hx : lookupProc s.procs x with
  | none => exact List.Chain.nil
  | some p0 =>
      by_cases hek : (e || k) = true
      · rw [if_pos hek]
        by_cases hn : n = x
        · subst hn
          have hr : s.status n = MCPStatus.running := by
            refine (h.running_iff n).mpr ?_
            rw [hx]
            rfl
          rw [if_pos rfl, hr]
          exact List.Chain.cons allowedEdge_run_stop List.Chain.nil
        · rw [if_neg hn]
          exact List.Chain.nil
      · rw [if_neg hek]
        exact List.Chain.nil

/-- Restart writes only allowed transitions. -/
theorem chain_restartWrites (e k sp : Bool) (m : MCPItem) (s : Supervisor)
    (n : String) (h : SupWF s) :
    List.Chain allowedEdge (s.status n) (restartWrites e k sp m s n) := by
  unfold restartWrites stopMCPServer
  cases hx : lookupProc s.procs m.name with
  | none => exact chain_startWrites sp m s n h
  | some p0 =>
      refine chain_append_of _ _ _ _ (chain_stopWrites e k m.name s n h) ?_
      rw [← statusAfter_stop]
      by_cases hr : (stopByName e k m.name s).2 = true
      · simp only [hr, if_true]
        exact chain_startWrites sp m _ n (supWF_stopByName e k m.name s h)
      · have hr' : (stopByName e k m.name s).2 = false := by
          cases hv : (stopByName e k m.name s).2
          · rfl
          · exact absurd hv hr
        simp only [hr', Bool.false_eq_true, if_false]
        exact List.Chain.nil

/-- The stop-all iteration writes only allowed transitions. -/
theorem chain_stopAllWrites (exits kills : String → Bool) (ns : List String)
    (s : Supervisor) (n : String) (h : SupWF s) :
    List.Chain allowedEdge (s.status n) (stopAllWrites exits kills ns s n) := by
  induction ns generalizing s with
  | nil => exact List.Chain.nil
  | cons x xs ih =>
      simp only [stopAllWrites]
      refine chain_append_of _ _ _ _ (chain_stopWrites _ _ x s n h) ?_
      rw [← statusAfter_stop]
      exact ih _ (supWF_stopByName _ _ x s h)

/-- Every operation writes only allowed transitions. -/
theorem chain_actionWrites (a : SupAction) (s : Supervisor) (n : String)
    (h : SupWF s) : List.Chain allowedEdge (s.status n) (actionWrites a s n) := by
  cases a with
  | startA sp m => exact chain_startWrites sp m s n h
  | stopA e k m => exact chain_stopWrites e k m.name s n h
  | restartA e k sp m => exact chain_restartWrites e k sp m s n h
  | exitA x => exact chain_exitWrites x s n h
  | stopAllA exits kills => exact chain_stopAllWrites exits kills _ s n h

/-- C6: per entry, every supervisor operation changes the status only
along the specified machine (unknown/stopped/error to running on start,
running to stopped on a completed deliberate stop, running to error on an
unsolicited exit or spawn failure), each operation's final status is the
last allowed write, well-formedness is preserved, and in particular an
entry that is started and whose process then exits with no stop requested
ends in status error. -/
theorem supervisor_status_machine (a : SupAction) (s : Supervisor) (n : String)
    (hwf : SupWF s) :
    List.Chain allowedEdge (s.status n) (actionWrites a s n) ∧
    (applyAction a s).status n = (actionWrites a s n).getLastD (s.status n) ∧
    SupWF (applyAction a s) ∧
    (∀ m : MCPItem, m.config.disabled ≠ some true →
      lookupProc s.procs m.name = none → s.stopReq m.name = false →
      (onProcessExit m.name (startMCPServer true m s).1).status m.name =
        MCPStatus.error) := by
  refine ⟨chain_actionWrites a s n hwf, statusAfter_action a s n,
    supWF_applyAction a s hwf, ?_⟩
  intro m hd hl hq
  have hstart : (startMCPServer true m s).1 =
      { s with
        procs := (m.name, s.nextPid) :: s.procs
        status := updateFn s.status m.name MCPStatus.running
        nextPid := s.nextPid + 1 } := by
    unfold startMCPServer
    rw [if_neg hd, hl]
    rfl
  rw [hstart]
  unfold onProcessExit
  simp [lookupProc_cons, updateFn, hq]

/-- The supervisor state at activation is well-formed. -/
theorem supWF_initSupervisor : SupWF initSupervisor := by
  constructor
  · intro n
    simp [initSupervisor, lookupProc]
  · intro n p hp
    simp [initSupervisor, lookupProc] at hp

/-- A concrete enabled entry named fs. -/
def sampleItem : MCPItem :=
  { name := "fs", config := sampleConfig, isGlobal := false }

theorem supervisor_status_machine_witness :
    SupWF initSupervisor ∧
    (onProcessExit "fs" (startMCPServer true sampleItem initSupervisor).1).status "fs" =
      MCPStatus.error := by
  refine ⟨supWF_initSupervisor, ?_⟩
  exact (supervisor_status_machine (SupAction.exitA "fs") initSupervisor "fs"
    supWF_initSupervisor).2.2.2 sampleItem (by decide) rfl rfl

/-- C7: start is a no-op returning failure when the entry is disabled or
a process handle already exists for it; in particular it never spawns a
second process for an already-running entry. -/
theorem startMCPServer_blocked (sp : Bool) (m : MCPItem) (s : Supervisor)
    (h : m.config.disabled = some true ∨
      (lookupProc s.procs m.name).isSome = true) :
    startMCPServer sp m s = (s, false) := by
  unfold startMCPServer
  rcases h with h | h
  · rw [if_pos h]
  · cases hl : lookupProc s.procs m.name with
    | none =>
        rw [hl] at h
        simp at h
    | some p0 =>
        by_cases hd : m.config.disabled = some true
        · rw [if_pos hd]
        · rw [if_neg hd]

/-- A concrete supervisor tracking a running process 0 for fs. -/
def runningSup : Supervisor :=
  { procs := [("fs", 0)]
    status := updateFn (fun _ => MCPStatus.unknown) "fs" MCPStatus.running
    stopReq := fun _ => false
    nextPid := 1 }

theorem startMCPServer_blocked_witness :
    (lookupProc runningSup.procs sampleItem.name).isSome = true ∧
    startMCPServer true sampleItem runningSup = (runningSup, false) := by
  have h : (lookupProc runningSup.procs sampleItem.name).isSome = true := by decide
  exact ⟨h, startMCPServer_blocked true sampleItem runningSup (Or.inr h)⟩

/-- C8: on a running entry, restart is stop then start sequentially: the
status passes running, then stopped, then running, the process tracked
after the restart is a different one from before, and when the stop phase
fails (timeout and failed forceful kill) restart returns failure without
starting any new process for that name. -/
theorem restartMCPServer_sequential (m : MCPItem) (s : Supervisor) (p : Nat)
    (hwf : SupWF s) (hrun : lookupProc s.procs m.name = some p)
    (hdis : m.config.disabled ≠ some true) :
    s.status m.name = MCPStatus.running ∧
    (∀ k : Bool,
      (stopMCPServer true k m s).1.status m.name = MCPStatus.stopped ∧
      (restartMCPServer true k true m s).2 = true ∧
      (restartMCPServer true k true m s).1.status m.name = MCPStatus.running ∧
      ∃ q, lookupProc (restartMCPServer true k true m s).1.procs m.name = some q ∧
        q ≠ p) ∧
    (∀ sp : Bool,
      (restartMCPServer false false sp m s).2 = false ∧
      lookupProc (restartMCPServer false false sp m s).1.procs m.name = some p ∧
      (restartMCPServer false false sp m s).1.status m.name = MCPStatus.running) := by
  have hstatus : s.status m.name = MCPStatus.running := by
    refine (hwf.running_iff m.name).mpr ?_
    rw [hrun]
    rfl
  refine ⟨hstatus, ?_, ?_⟩
  · intro k
    have hstopped : (stopMCPServer true k m s).1.status m.name = MCPStatus.stopped := by
      show (stopByName true k m.name s).1.status m.name = MCPStatus.stopped
      rw [statusAfter_stop]
      unfold stopWrites
      rw [hrun]
      simp
    have hr2 : (stopMCPServer true k m s).2 = true := by
      unfold stopMCPServer stopByName
      rw [hrun]
      rfl
    have hnone : lookupProc (stopMCPServer true k m s).1.procs m.name = none := by
      unfold stopMCPServer stopByName onProcessExit
      simp [hrun, lookupProc_removeProc]
    have hnp : (stopMCPServer true k m s).1.nextPid = s.nextPid := by
      unfold stopMCPServer stopByName onProcessExit
      simp [hrun]
    have hrestart : restartMCPServer true k true m s =
        startMCPServer true m (stopMCPServer true k m s).1 := by
      simp only [restartMCPServer, hrun, hr2, if_true]
    have hstart : startMCPServer true m (stopMCPServer true k m s).1 =
        ({ (stopMCPServer true k m s).1 with
           procs := (m.name, (stopMCPServer true k m s).1.nextPid) ::
             (stopMCPServer true k m s).1.procs
           status := updateFn (stopMCPServer true k m s).1.status m.name
             MCPStatus.running
           nextPid := (stopMCPServer true k m s).1.nextPid + 1 }, true) := by
      unfold startMCPServer
      rw [if_neg hdis, hnone]
      rfl
    refine ⟨hstopped, ?_, ?_, ?_⟩
    · rw [hrestart, hstart]
    · rw [hrestart, hstart]
      simp [updateFn]
    · refine ⟨s.nextPid, ?_, ?_⟩
      · rw [hrestart, hstart]
        show lookupProc ((m.name, (stopMCPServer true k m s).1.nextPid) ::
          (stopMCPServer true k m s).1.procs) m.name = some s.nextPid
        rw [lookupProc_cons, if_pos rfl, hnp]
      · exact Nat.ne_of_gt (hwf.pid_lt m.name p hrun)
  · intro sp
    have hsf : stopMCPServer false false m s =
        ({ s with stopReq := updateFn s.stopReq m.name true }, false) := by
      unfold stopMCPServer stopByName
      rw [hrun]
      rfl
    have hre : restartMCPServer false false sp m s =
        ({ s with stopReq := updateFn s.stopReq m.name true }, false) := by
      simp only [restartMCPServer, hrun, hsf, Bool.false_eq_true, if_false]
    refine ⟨?_, ?_, ?_⟩
    · rw [hre]
    · rw [hre]
      exact hrun
    · rw [hre]
      exact hstatus

/-- The concrete supervisor tracking one running process is well-formed. -/
theorem supWF_runningSup : SupWF runningSup := by
  constructor
  · intro n
    by_cases hn : n = "fs"
    · subst hn
      simp [runningSup, updateFn, lookupProc_cons]
    · simp [runningSup, updateFn, hn, lookupProc_cons, Ne.symm hn, lookupProc]
  · intro n p hp
    rw [show runningSup.procs = [("fs", 0)] from rfl, lookupProc_cons] at hp
    by_cases hn : ("fs", 0).1 = n
    · rw [if_pos hn] at hp
      have hp0 : p = 0 := by simpa using hp.symm
      subst hp0
      show 0 < 1
      exact Nat.zero_lt_one
    · rw [if_neg hn] at hp
      simp [lookupProc] at hp

theorem restartMCPServer_sequential_witness :
    lookupProc runningSup.procs sampleItem.name = some 0 ∧
    sampleItem.config.disabled ≠ some true ∧
    runningSup.status "fs" = MCPStatus.running ∧
    (stopMCPServer true true sampleItem runningSup).1.status "fs" = MCPStatus.stopped ∧
    (restartMCPServer true true true sampleItem runningSup).1.status "fs" = MCPStatus.running ∧
    (restartMCPServer false false true sampleItem runningSup).2 = false := by
  have h := restartMCPServer_sequential sampleItem runningSup 0 supWF_runningSup
    rfl (by decide)
  exact ⟨rfl, by decide, h.1, (h.2.1 true).1, (h.2.1 true).2.2.1, (h.2.2 true).1⟩
